import Mathlib

/-!
Verification of the `lidbox` example notebooks (audio augmentation and
embedding pipelines) against their natural-language specification.

The notebooks build `tf.data` pipelines over per-utterance records
(Python dicts).  We embed the record type shallowly as a structure, PCM
samples as exact rationals (floating-point rounding is abstracted away),
and the process-wide NumPy generator `np_rng` as explicit streams of
draws: a stream `u : Nat -> Rat` of unit-interval draws feeding
`np_rng.uniform` and a stream `nrm : Nat -> Rat` of standard-normal
draws feeding `np_rng.normal`.  Which concrete draw an invocation of a
wrapper receives is determined by a schedule parameter, mirroring the
fact that the shared generator hands out values in execution order.
-/

namespace Lidbox

/-- One row of the metadata table handed to `pipeline_from_metadata`
(the columns selected by `metadata_to_dataset_input`). -/
structure MetaRow where
  id : String
  path : String
  label : String
  target : Int
  split : String
  is_copy : Bool
deriving DecidableEq, Repr

/-- A per-utterance record flowing through the pipeline, embedding the
Python dict.  Keys added later in the pipeline (`signal`, `sample_rate`,
`logmelspec`) start at default values standing for an absent key;
`logmelspec = none` means feature extraction has not run on the record. -/
structure Record where
  id : String
  path : String
  label : String
  target : Int
  split : String
  is_copy : Bool
  signal : List ℚ
  sample_rate : ℚ
  logmelspec : Option (List (List ℚ))
deriving DecidableEq, Repr

/-- Embeds `metadata_to_dataset_input` composed with
`tf.data.Dataset.from_tensor_slices`: one record per metadata row,
copying the six columns; no signal yet. -/
def metadata_to_dataset_input (m : MetaRow) : Record :=
  { id := m.id, path := m.path, label := m.label, target := m.target
    split := m.split, is_copy := m.is_copy
    signal := [], sample_rate := 0, logmelspec := none }

/-- Embeds `read_mp3`: decode the clip at `x.path` and condition it
(resample to 16 kHz, peak-normalize to -3 dBFS, trim silence).  The
decoding and conditioning are file I/O plus `lidbox.features.audio`
routines external to this repository, so they are abstracted into the
parameter `rd` mapping a path to its conditioned signal; the record
gains the conditioned `signal` and `sample_rate = 16000` exactly as in
the source. -/
def read_mp3 (rd : String → List ℚ) (x : Record) : Record :=
  { x with signal := rd x.path, sample_rate := 16000 }

/-- Embeds `signal_is_not_empty`: `tf.size(x["signal"]) > 0`. -/
def signal_is_not_empty (x : Record) : Bool :=
  x.signal.length > 0

/-- Modelled from the spec: `scipy.signal.resample s num` performs
band-limited (FFT) resampling to exactly `num` output samples.  The DSP
kernel lives in SciPy, outside this repository, so only its sample-count
contract is modelled, by index remapping into the input. -/
def scipy_resample (s : List ℚ) (num : ℕ) : List ℚ :=
  (List.range num).map (fun i => s.getD (i * s.length / num) 0)

/-- Embeds `random_speed_change(s, r, lo=0.9, hi=1.1)`.  The draw
`np_rng.uniform(lo, hi)` is modelled as `lo + u * (hi - lo)` where
`u` is the unit-interval value handed out by the shared generator.
Python `int()` truncates toward zero, which on the nonnegative
quantities involved is `Int.floor` followed by `Int.toNat`. -/
def random_speed_change (s : List ℚ) (r : ℚ) (lo hi : ℚ) (u : ℚ) :
    List ℚ × ℚ :=
  let ratio := lo + u * (hi - lo)
  let new_len := ⌊((s.length : ℚ) * r) / ( ratio * r)⌋.toNat
  (scipy_resample s new_len, ratio)

/-- Embeds `random_speed_change_wrapper`: records not flagged `is_copy`
are returned unchanged (AutoGraph turns the `if not x["is_copy"]` into a
per-element conditional); flagged records get their signal resampled by
a ratio drawn from the shared generator, the default range being
`lo = 0.9`, `hi = 1.1`. -/
def random_speed_change_wrapper (u : ℚ) (x : Record) : Record :=
  if x.is_copy = false then x
  else { x with signal := (random_speed_change x.signal x.sample_rate (9/10) (11/10) u).1 }

/-- Largest absolute sample value of a signal (`max(abs(s))`). -/
def maxAbs (s : List ℚ) : ℚ :=
  (s.map (fun v => |v|)).foldr max 0

/-- Modelled from the spec: `lidbox.features.audio.peak_normalize`
(external to this repository) scales the whole signal so that
`max(abs(sample))` maps exactly to the target peak, and is a no-op on an
all-zero signal.  The target peak `10 ^ (dBFS / 20)` is irrational, so
the caller passes the target amplitude `t` directly; every call site in
the notebooks uses `dBFS = -3.0`, i.e. one fixed `t` per run. -/
def peak_normalize (t : ℚ) (s : List ℚ) : List ℚ :=
  if maxAbs s = 0 then s else s.map (fun v => v * (t / maxAbs s))

/-- Modelled from the spec: `scipy.signal.lfilter(b, 1.0, s)` (external
to this repository) is the direct-form FIR convolution with zero initial
state: `y n = sum over k of b k * s (n - k)`, output as long as the
input. -/
def scipy_lfilter (b s : List ℚ) : List ℚ :=
  (List.range s.length).map (fun n =>
    ((List.range b.length).map (fun k =>
      if k ≤ n then b.getD k 0 * s.getD (n - k) 0 else 0)).sum)

/-- Embeds `random_filter(s, N=10)`: draw the `N = 10` FIR coefficients
from the shared generator's standard-normal stream `nrm`, starting at
offset `off` (the offset an invocation gets is fixed by the execution
schedule), and convolve. -/
def random_filter (nrm : ℕ → ℚ) (off : ℕ) (s : List ℚ) :
    List ℚ × List ℚ :=
  let b := (List.range 10).map (fun k => nrm (off + k))
  (scipy_lfilter b s, b)

/-- Embeds `random_filter_wrapper`: filter the signal with a freshly
drawn FIR kernel, then re-apply `peak_normalize(s, dBFS=-3.0)`; `t` is
the target amplitude standing for `10 ^ (-3 / 20)` as in
`peak_normalize`. -/
def random_filter_wrapper (t : ℚ) (nrm : ℕ → ℚ) (off : ℕ) (x : Record) : Record :=
  { x with signal := peak_normalize t (random_filter nrm off x.signal).1 }

/-- Per-frequency-bin mean over the time axis: `S` is a list of STFT
frames (time major), `j` a frequency-bin index. -/
def colMean (S : List (List ℚ)) (j : ℕ) : ℚ :=
  ((S.map (fun row => row.getD j 0)).sum) / (S.length : ℚ)

/-- Modelled from the spec: `lidbox.features.cmvn` (external to this
repository) subtracts the per-frequency-bin mean computed over the time
axis of the current utterance; with `normalize_variance` it additionally
divides by the per-bin spread (modelled here up to the square root,
which is immaterial because every call in the notebooks passes
`normalize_variance=False`). -/
def cmvn (S : List (List ℚ)) (normalize_variance : Bool) : List (List ℚ) :=
  let centered := S.map (fun row =>
    (List.range row.length).map (fun j => row.getD j 0 - colMean S j))
  if normalize_variance then
    centered.map (fun row =>
      (List.range row.length).map (fun j =>
        row.getD j 0 / colMean (centered.map (fun r => r.map (fun v => v * v))) j))
  else centered

/-- Embeds `batch_extract_features` on a batch of one record, i.e. the
`batch(1) / map / unbatch` triple in the pipelines: short-time
spectrogram, mel projection, log compression `log(S + 1e-6)`, then CMVN
without variance normalization.  `audio.spectrograms`,
`audio.linear_to_mel` and `tf.math.log` are external DSP kernels, so
they enter as the parameters `specf`, `melf` and `lg`. -/
def batch_extract_features (lg : ℚ → ℚ) (specf : List ℚ → ℚ → List (List ℚ))
    (melf : List (List ℚ) → ℚ → List (List ℚ)) (x : Record) : Record :=
  let S := specf x.signal x.sample_rate
  let S := melf S x.sample_rate
  let S := S.map (fun row => row.map (fun v => lg (v + 1/1000000)))
  let S := cmvn S false
  { x with logmelspec := some S }

/-- The augmentation stage the train pipeline inserts after the cache:
`map(random_speed_change_wrapper)` then `map(random_filter_wrapper)`.
Both maps run with `num_parallel_calls`, all invocations drawing from
the one shared generator, so the value an invocation receives is fixed
by an execution schedule: invocation `i` of the speed map reads unit
draw `u (sched i)`, and invocation `i` of the filter map reads the ten
normal draws starting at `nrm (10 * schedf i)`. -/
def train_augment (u : ℕ → ℚ) (sched : ℕ → ℕ) (t : ℚ) (nrm : ℕ → ℚ)
    (schedf : ℕ → ℕ) (recs : List Record) : List Record :=
  ((recs.enum.map (fun p => random_speed_change_wrapper (u (sched p.1)) p.2)).enum.map
    (fun p => random_filter_wrapper t nrm (10 * schedf p.1) p.2))

/-- The metadata order the augmenting pipeline traverses: for the train
split, `data.sample(frac=1)` shuffles the rows once, when the pipeline
is constructed; `sh` is the permutation that this single construction
time draw from the shared generator produced.  Other splits keep
metadata order. -/
def pfm_ordered (sh : List MetaRow → List MetaRow) (rows : List MetaRow)
    (split : String) : List MetaRow :=
  if split = "train" then sh rows else rows

/-- Contents of the per-split file cache of `pipeline_from_metadata`
(the `.cache(...)` call): everything upstream of it, namely
`from_tensor_slices |> map(read_mp3) |> filter(signal_is_not_empty)`
(`prefetch` buffers do not change the stream). -/
def pfm_cacheContents (rd : String → List ℚ) (sh : List MetaRow → List MetaRow)
    (rows : List MetaRow) (split : String) : List Record :=
  (((pfm_ordered sh rows split).map metadata_to_dataset_input).map (read_mp3 rd)).filter
    (fun x => signal_is_not_empty x)

/-- Embeds one full traversal (epoch) number `k` of the dataset built by
`pipeline_from_metadata` in the augmenting notebook: the cached stream,
then, for the train split only, the two augmentation maps with draws
fresh to traversal `k`, then `batch(1) / batch_extract_features /
unbatch`.  The first traversal computes the cache contents and later
traversals replay them, so the part upstream of the cache does not
depend on `k`. -/
def pfm_traversal (rd : String → List ℚ) (sh : List MetaRow → List MetaRow)
    (u : ℕ → ℕ → ℚ) (sched : ℕ → ℕ → ℕ) (t : ℚ) (nrm : ℕ → ℕ → ℚ)
    (schedf : ℕ → ℕ → ℕ) (lg : ℚ → ℚ) (specf : List ℚ → ℚ → List (List ℚ))
    (melf : List (List ℚ) → ℚ → List (List ℚ))
    (rows : List MetaRow) (split : String) (k : ℕ) : List Record :=
  let ds := pfm_cacheContents rd sh rows split
  let ds := if split = "train" then train_augment (u k) (sched k) t (nrm k) (schedf k) ds else ds
  ds.map (batch_extract_features lg specf melf)

/-- Modelled from the spec:
`lidbox.data.steps.random_signal_speed_change(ds, min=0.9, max=1.1,
flag="is_copy")` (external to this repository) applies the random speed
change to every record whose `flag` field is set, drawing each ratio
uniformly from `[min, max]` from the shared generator — the same
per-record behaviour as `random_speed_change_wrapper`. -/
def random_signal_speed_change (u : ℕ → ℚ) (sched : ℕ → ℕ)
    (recs : List Record) : List Record :=
  recs.enum.map (fun p => random_speed_change_wrapper (u (sched p.1)) p.2)

/-- The filter map of the embeddings pipeline
(`map(random_filter, num_parallel_calls=...)`, whose body equals
`random_filter_wrapper`). -/
def pfMeta_filter_map (t : ℚ) (nrm : ℕ → ℚ) (schedf : ℕ → ℕ)
    (recs : List Record) : List Record :=
  recs.enum.map (fun p => random_filter_wrapper t nrm (10 * schedf p.1) p.2)

/-- Contents of the per-split file cache of `pipeline_from_meta` in the
embeddings notebook.  There is no empty-signal filter in that notebook;
for the test split the cache sits after `batch(1) /
batch_extract_features / unbatch`, for every other split it sits
directly after `map(read_mp3)`. -/
def pfMeta_cacheContents (rd : String → List ℚ) (sh : List MetaRow → List MetaRow)
    (lg : ℚ → ℚ) (specf : List ℚ → ℚ → List (List ℚ))
    (melf : List (List ℚ) → ℚ → List (List ℚ))
    (rows : List MetaRow) (split : String) : List Record :=
  let base := ((pfm_ordered sh rows split).map metadata_to_dataset_input).map (read_mp3 rd)
  if split = "test" then base.map (batch_extract_features lg specf melf) else base

/-- Embeds one full traversal number `k` of the dataset built by
`pipeline_from_meta` in the embeddings notebook: the test split replays
its cache of fully extracted features; every other split (train and
dev alike) replays its cached signals, applies
`random_signal_speed_change` and the filter map with traversal-fresh
draws, and then extracts features. -/
def pfMeta_traversal (rd : String → List ℚ) (sh : List MetaRow → List MetaRow)
    (u : ℕ → ℕ → ℚ) (sched : ℕ → ℕ → ℕ) (t : ℚ) (nrm : ℕ → ℕ → ℚ)
    (schedf : ℕ → ℕ → ℕ) (lg : ℚ → ℚ) (specf : List ℚ → ℚ → List (List ℚ))
    (melf : List (List ℚ) → ℚ → List (List ℚ))
    (rows : List MetaRow) (split : String) (k : ℕ) : List Record :=
  let ds := pfMeta_cacheContents rd sh lg specf melf rows split
  if split = "test" then ds
  else
    ((pfMeta_filter_map t (nrm k) (schedf k)
        (random_signal_speed_change (u k) (sched k) ds)).map
      (batch_extract_features lg specf melf))

/-- Follows the spec's words, for comparison with the source pipeline:
the train split's utterance order would be produced by a fresh shuffle
drawn from the generator at the start of traversal `k` (`shuffles k`),
rather than once at pipeline construction. -/
def spec_train_traversal_ids (rd : String → List ℚ)
    (shuffles : ℕ → List MetaRow → List MetaRow) (rows : List MetaRow)
    (k : ℕ) : List String :=
  (pfm_cacheContents rd (shuffles k) rows "train").map (fun x => x.id)

/-- The utterance order actually produced by traversal `k` of the train
split of `pipeline_from_metadata`. -/
def pfm_train_traversal_ids (rd : String → List ℚ) (sh : List MetaRow → List MetaRow)
    (u : ℕ → ℕ → ℚ) (sched : ℕ → ℕ → ℕ) (t : ℚ) (nrm : ℕ → ℕ → ℚ)
    (schedf : ℕ → ℕ → ℕ) (lg : ℚ → ℚ) (specf : List ℚ → ℚ → List (List ℚ))
    (melf : List (List ℚ) → ℚ → List (List ℚ))
    (rows : List MetaRow) (k : ℕ) : List String :=
  (pfm_traversal rd sh u sched t nrm schedf lg specf melf rows "train" k).map
    (fun x => x.id)

/-! Concrete fixtures used by the closed counterexample and witness
theorems below. -/

/-- A train-split metadata row not flagged as an oversampled copy. -/
def rowTrainOrig : MetaRow :=
  { id := "u0", path := "p0", label := "et", target := 0, split := "train", is_copy := false }

/-- A train-split metadata row flagged `is_copy`. -/
def rowTrainCopy : MetaRow :=
  { id := "u1", path := "p1", label := "et", target := 0, split := "train", is_copy := true }

/-- A second train-split metadata row flagged `is_copy`. -/
def rowTrainCopy2 : MetaRow :=
  { id := "u2", path := "p2", label := "et", target := 0, split := "train", is_copy := true }

/-- A dev-split metadata row. -/
def rowDev : MetaRow :=
  { id := "d0", path := "pd", label := "mn", target := 1, split := "dev", is_copy := false }

/-- A conditioned train record not flagged as a copy. -/
def recOrig : Record :=
  { id := "u0", path := "p0", label := "et", target := 0, split := "train"
    is_copy := false, signal := [1, 1], sample_rate := 16000, logmelspec := none }

/-- A conditioned train record flagged `is_copy`. -/
def recCopy : Record :=
  { recOrig with id := "u1", path := "p1", is_copy := true }

/-- A decoder model on which every clip conditions to the one-sample
signal `[1]`. -/
def rdOne : String → List ℚ := fun _ => [1]

/-- A decoder model on which every clip conditions to the two-sample
signal `[1, 1]`. -/
def rdTwo : String → List ℚ := fun _ => [1, 1]

/-- A decoder model on which conditioning leaves every clip empty
(the whole clip is below the silence threshold). -/
def rdEmpty : String → List ℚ := fun _ => []

/-- Trivial stand-in for the external `tf.math.log` kernel. -/
def lgId : ℚ → ℚ := fun v => v

/-- Trivial stand-in for the external spectrogram kernel: one frame
holding the raw signal. -/
def specfTriv : List ℚ → ℚ → List (List ℚ) := fun s _ => [s]

/-- Trivial stand-in for the external mel-filterbank kernel. -/
def melfTriv : List (List ℚ) → ℚ → List (List ℚ) := fun S _ => S

/-- A shared-generator stream whose first unit draw is 0 (ratio 0.9)
and whose later draws are 1 (ratio 1.1), identical on every
traversal. -/
def uZeroOne : ℕ → ℕ → ℚ := fun _ i => if i = 0 then 0 else 1

/-- The execution schedule of a serial run: invocation `i` receives
draw `i`, on every traversal. -/
def schedSerial : ℕ → ℕ → ℕ := fun _ i => i

/-- An execution schedule in which the first two invocations receive
each other's draws, as a parallel run may order them. -/
def schedSwapped : ℕ → ℕ → ℕ := fun _ i => if i = 0 then 1 else if i = 1 then 0 else i

/-- A normal-draw stream that is constantly 1. -/
def nrmOne : ℕ → ℕ → ℚ := fun _ _ => 1

/-- The identity metadata shuffle: the construction-time draw happened
to leave the order unchanged. -/
def shId : List MetaRow → List MetaRow := fun rows => rows

/-- Per-traversal shuffles as the spec describes them: the draw at
traversal 0 leaves the order unchanged, the draw at traversal 1
reverses it. -/
def shufflesRev : ℕ → List MetaRow → List MetaRow :=
  fun k rows => if k = 0 then rows else rows.reverse

/-! Helper lemmas. -/

theorem scipy_resample_length (s : List ℚ) (num : ℕ) :
    (scipy_resample s num).length = num := by
  simp [scipy_resample]

theorem scipy_lfilter_length (b s : List ℚ) :
    (scipy_lfilter b s).length = s.length := by
  simp [scipy_lfilter]

theorem maxAbs_cons (a : ℚ) (l : List ℚ) :
    maxAbs (a :: l) = max |a| (maxAbs l) := rfl

theorem maxAbs_nonneg (s : List ℚ) : 0 ≤ maxAbs s := by
  induction s with
  | nil => exact le_refl 0
  | cons a l ih => rw [maxAbs_cons]; exact le_max_of_le_right ih

theorem maxAbs_map_mul (s : List ℚ) (c : ℚ) :
    maxAbs (s.map (fun v => v * c)) = |c| * maxAbs s := by
  induction s with
  | nil => simp [maxAbs]
  | cons a l ih =>
    rw [List.map_cons, maxAbs_cons, maxAbs_cons, ih, abs_mul,
      mul_max_of_nonneg _ _ (abs_nonneg c), mul_comm |a| |c|]

theorem peak_normalize_length (t : ℚ) (s : List ℚ) :
    (peak_normalize t s).length = s.length := by
  unfold peak_normalize
  split <;> simp

theorem maxAbs_peak_normalize (t : ℚ) (s : List ℚ) (h : maxAbs s ≠ 0) (ht : 0 < t) :
    maxAbs (peak_normalize t s) = t := by
  have hpos : 0 < maxAbs s := lt_of_le_of_ne (maxAbs_nonneg s) (Ne.symm h)
  unfold peak_normalize
  rw [if_neg h, maxAbs_map_mul, abs_of_pos (div_pos ht hpos), div_mul_cancel₀ _ h]

theorem getD_range_map (f : ℕ → ℚ) (n j : ℕ) (h : j < n) :
    ((List.range n).map f).getD j 0 = f j := by
  rw [List.getD_eq_getElem?_getD, List.getElem?_map, List.getElem?_range h]
  rfl

theorem sum_map_sub_const (S : List (List ℚ)) (f : List ℚ → ℚ) (c : ℚ) :
    (S.map (fun row => f row - c)).sum = (S.map f).sum - (S.length : ℚ) * c := by
  induction S with
  | nil => simp
  | cons a l ih =>
    simp only [List.map_cons, List.sum_cons, List.length_cons, ih]
    push_cast
    ring

theorem cmvn_false (S : List (List ℚ)) :
    cmvn S false = S.map (fun row =>
      (List.range row.length).map (fun j => row.getD j 0 - colMean S j)) := by
  unfold cmvn
  simp

theorem cmvn_colsum_zero (S : List (List ℚ)) (B j : ℕ)
    (hrect : ∀ row ∈ S, row.length = B) (hj : j < B) :
    ((cmvn S false).map (fun row => row.getD j 0)).sum = 0 := by
  rw [cmvn_false, List.map_map]
  have hcong : (S.map ((fun row => row.getD j 0) ∘ fun row =>
      (List.range row.length).map (fun j2 => row.getD j2 0 - colMean S j2))) =
      S.map (fun row => row.getD j 0 - colMean S j) := by
    apply List.map_congr_left
    intro row hrow
    exact getD_range_map (fun j2 => row.getD j2 0 - colMean S j2) row.length j
      (by rw [hrect row hrow]; exact hj)
  rw [hcong, sum_map_sub_const]
  rcases S with _ | ⟨a, l⟩
  · simp
  · have hlen : (((a :: l).length : ℚ)) ≠ 0 := by
      rw [List.length_cons]
      exact_mod_cast Nat.succ_ne_zero l.length
    unfold colMean
    rw [mul_comm, div_mul_cancel₀ _ hlen, sub_self]

theorem random_speed_change_wrapper_id (u : ℚ) (x : Record) :
    (random_speed_change_wrapper u x).id = x.id := by
  unfold random_speed_change_wrapper
  split <;> rfl

theorem random_filter_wrapper_id (t : ℚ) (nrm : ℕ → ℚ) (off : ℕ) (x : Record) :
    (random_filter_wrapper t nrm off x).id = x.id := rfl

theorem map_id_of_enum_map (l : List Record) (f : ℕ × Record → Record)
    (hf : ∀ p : ℕ × Record, (f p).id = p.2.id) :
    (l.enum.map f).map (fun r => r.id) = l.map (fun r => r.id) := by
  rw [List.map_map]
  have h1 : (l.enum.map ((fun r : Record => r.id) ∘ f)) = l.enum.map (fun p => p.2.id) :=
    List.map_congr_left (fun p _ => hf p)
  rw [h1]
  have h2 : l.enum.map (fun p : ℕ × Record => p.2.id) =
      (List.map Prod.snd l.enum).map (fun r : Record => r.id) := by
    rw [List.map_map]
    rfl
  rw [h2, List.enum_map_snd]

theorem train_augment_ids (u : ℕ → ℚ) (sched : ℕ → ℕ) (t : ℚ) (nrm : ℕ → ℚ)
    (schedf : ℕ → ℕ) (recs : List Record) :
    (train_augment u sched t nrm schedf recs).map (fun r => r.id) =
      recs.map (fun r => r.id) := by
  unfold train_augment
  rw [map_id_of_enum_map _ _ (fun p => random_filter_wrapper_id t nrm (10 * schedf p.1) p.2),
    map_id_of_enum_map _ _ (fun p => random_speed_change_wrapper_id (u (sched p.1)) p.2)]

theorem map_bef_ids (lg : ℚ → ℚ) (specf : List ℚ → ℚ → List (List ℚ))
    (melf : List (List ℚ) → ℚ → List (List ℚ)) (ds : List Record) :
    (ds.map (batch_extract_features lg specf melf)).map (fun r => r.id) =
      ds.map (fun r => r.id) := by
  rw [List.map_map]
  rfl

/-! Claim theorems. -/

/-- C3: the random speed change is applied exactly to records flagged
`is_copy`: a record with `is_copy = false` passes through the wrapper
bit-identically (the whole record, signal included, is returned
unchanged), while a record with `is_copy = true` has its signal
resampled, the target length being governed by the freshly drawn ratio
`0.9 + u * (1.1 - 0.9)` where `u` is the unit draw the shared generator
hands this invocation. -/
theorem speed_change_exactly_on_copies (u : ℚ) (x : Record) :
    (x.is_copy = false → random_speed_change_wrapper u x = x) ∧
    (x.is_copy = true → (random_speed_change_wrapper u x).signal =
      scipy_resample x.signal
        ⌊((x.signal.length : ℚ) * x.sample_rate) /
          ((9/10 + u * (11/10 - 9/10)) * x.sample_rate)⌋.toNat) := by
  constructor
  · intro h
    unfold random_speed_change_wrapper
    rw [if_pos h]
  · intro h
    unfold random_speed_change_wrapper
    rw [if_neg (by simp [h])]
    rfl

/-- Witness for C3 at concrete records: the non-copy record passes
through unchanged, the copy record gets the resampled signal. -/
theorem speed_change_exactly_on_copies_witness :
    (recOrig.is_copy = false ∧ random_speed_change_wrapper (1/2) recOrig = recOrig) ∧
    (recCopy.is_copy = true ∧ (random_speed_change_wrapper (1/2) recCopy).signal =
      scipy_resample recCopy.signal
        ⌊((recCopy.signal.length : ℚ) * recCopy.sample_rate) /
          ((9/10 + (1/2 : ℚ) * (11/10 - 9/10)) * recCopy.sample_rate)⌋.toNat) :=
  ⟨⟨rfl, (speed_change_exactly_on_copies (1/2) recOrig).1 rfl⟩,
   ⟨rfl, (speed_change_exactly_on_copies (1/2) recCopy).2 rfl⟩⟩

/-- C9: both augmentation wrappers modify only the `signal` field;
every other field of the record (`id`, `path`, `label`, `target`,
`split`, `is_copy`, `sample_rate`) is returned exactly as in the
input. -/
theorem wrappers_modify_only_signal_field (u t : ℚ) (nrm : ℕ → ℚ) (off : ℕ)
    (x : Record) :
    ((random_speed_change_wrapper u x).id = x.id ∧
     (random_speed_change_wrapper u x).path = x.path ∧
     (random_speed_change_wrapper u x).label = x.label ∧
     (random_speed_change_wrapper u x).target = x.target ∧
     (random_speed_change_wrapper u x).split = x.split ∧
     (random_speed_change_wrapper u x).is_copy = x.is_copy ∧
     (random_speed_change_wrapper u x).sample_rate = x.sample_rate) ∧
    ((random_filter_wrapper t nrm off x).id = x.id ∧
     (random_filter_wrapper t nrm off x).path = x.path ∧
     (random_filter_wrapper t nrm off x).label = x.label ∧
     (random_filter_wrapper t nrm off x).target = x.target ∧
     (random_filter_wrapper t nrm off x).split = x.split ∧
     (random_filter_wrapper t nrm off x).is_copy = x.is_copy ∧
     (random_filter_wrapper t nrm off x).sample_rate = x.sample_rate) := by
  constructor
  · unfold random_speed_change_wrapper
    split <;> exact ⟨rfl, rfl, rfl, rfl, rfl, rfl, rfl⟩
  · exact ⟨rfl, rfl, rfl, rfl, rfl, rfl, rfl⟩

/-- C4, counterexample to the claim as stated: on the one-sample signal
`[1]` the drawn ratio `1.1` lies in the fixed range and exceeds 1, the
input is non-empty, yet the resampled output is empty — not the
"strictly shorter non-empty signal" the claim asserts. -/
theorem speed_change_single_sample_empty :
    (random_speed_change [1] 16000 (9/10) (11/10) 1).2 = 11/10 ∧
    (1 : ℚ) < 11/10 ∧
    ([1] : List ℚ) ≠ [] ∧
    (random_speed_change [1] 16000 (9/10) (11/10) 1).1 = [] := by
  refine ⟨?_, by norm_num, by simp, ?_⟩
  · unfold random_speed_change
    norm_num
  · unfold random_speed_change
    norm_num [scipy_resample]

/-- C4 (amended): the drawn ratio lies in the fixed range
`[0.9, 1.1]`, the resampled output length is the integer truncation of
the input length divided by the ratio, and a ratio greater than 1
yields a strictly shorter output whenever the input is non-empty
(the output can be empty, as the counterexample shows). -/
theorem speed_change_range_and_truncated_length (s : List ℚ) (r u : ℚ)
    (hr : 0 < r) (hu0 : 0 ≤ u) (hu1 : u ≤ 1) :
    (9/10 : ℚ) ≤ (random_speed_change s r (9/10) (11/10) u).2 ∧
    (random_speed_change s r (9/10) (11/10) u).2 ≤ 11/10 ∧
    (random_speed_change s r (9/10) (11/10) u).1.length =
      ⌊(s.length : ℚ) / (random_speed_change s r (9/10) (11/10) u).2⌋.toNat ∧
    (1 < (random_speed_change s r (9/10) (11/10) u).2 → 0 < s.length →
      (random_speed_change s r (9/10) (11/10) u).1.length < s.length) := by
  have h2 : (random_speed_change s r (9/10) (11/10) u).2 = 9/10 + u * (11/10 - 9/10) := rfl
  have hlo : (9/10 : ℚ) ≤ 9/10 + u * (11/10 - 9/10) := by nlinarith
  have hhi : (9/10 : ℚ) + u * (11/10 - 9/10) ≤ 11/10 := by nlinarith
  have hlen : (random_speed_change s r (9/10) (11/10) u).1.length =
      ⌊(s.length : ℚ) / (9/10 + u * (11/10 - 9/10))⌋.toNat := by
    show (scipy_resample s _).length = _
    rw [scipy_resample_length, mul_div_mul_right _ _ (ne_of_gt hr)]
  refine ⟨by rw [h2]; exact hlo, by rw [h2]; exact hhi, by rw [h2]; exact hlen, ?_⟩
  rw [h2, hlen]
  intro hgt hs
  have hq : (s.length : ℚ) / (9/10 + u * (11/10 - 9/10)) < (s.length : ℚ) :=
    div_lt_self (by exact_mod_cast hs) hgt
  have hfl : ⌊(s.length : ℚ) / (9/10 + u * (11/10 - 9/10))⌋ < (s.length : ℤ) := by
    rw [Int.floor_lt]
    push_cast
    exact hq
  omega

/-- Witness for C4 (amended) at the two-sample signal `[1, 1]` with the
unit draw 1: the ratio is 1.1 and the output has 1 sample, strictly
fewer than 2. -/
theorem speed_change_range_and_truncated_length_witness :
    ((0 : ℚ) < 16000 ∧ (0 : ℚ) ≤ 1 ∧ (1 : ℚ) ≤ 1 ∧
      1 < (random_speed_change [1, 1] 16000 (9/10) (11/10) 1).2 ∧
      0 < ([1, 1] : List ℚ).length) ∧
    (random_speed_change [1, 1] 16000 (9/10) (11/10) 1).1.length <
      ([1, 1] : List ℚ).length :=
  ⟨⟨by norm_num, by norm_num, le_refl 1,
    by unfold random_speed_change; norm_num, by simp⟩,
   (speed_change_range_and_truncated_length [1, 1] 16000 1 (by norm_num)
      (by norm_num) (le_refl 1)).2.2.2
    (by unfold random_speed_change; norm_num) (by simp)⟩

/-- C10: the output length picked by the speed change is the integer
truncation of `len(s) / ratio` and does not depend on the sample-rate
argument, since the rate cancels from `int(len(s) * r / (ratio * r))`
in exact arithmetic. -/
theorem speed_change_length_rate_independent (s : List ℚ) (r r' lo hi u : ℚ)
    (hr : 0 < r) (hr' : 0 < r') (_hpos : 0 < lo + u * (hi - lo)) :
    (random_speed_change s r lo hi u).1.length =
      (random_speed_change s r' lo hi u).1.length ∧
    (random_speed_change s r lo hi u).1.length =
      ⌊(s.length : ℚ) / (lo + u * (hi - lo))⌋.toNat := by
  have key : ∀ rr : ℚ, 0 < rr → (random_speed_change s rr lo hi u).1.length =
      ⌊(s.length : ℚ) / (lo + u * (hi - lo))⌋.toNat := by
    intro rr hrr
    show (scipy_resample s _).length = _
    rw [scipy_resample_length, mul_div_mul_right _ _ (ne_of_gt hrr)]
  exact ⟨by rw [key r hr, key r' hr'], key r hr⟩

/-- Witness for C10 at `[1, 1]` with rates 16000 and 8000 and ratio 1:
both rates give output length 2 = trunc(2 / 1). -/
theorem speed_change_length_rate_independent_witness :
    ((0 : ℚ) < 16000 ∧ (0 : ℚ) < 8000 ∧ (0 : ℚ) < 1 + 0 * (1 - 1)) ∧
    (random_speed_change [1, 1] 16000 1 1 0).1.length =
      (random_speed_change [1, 1] 8000 1 1 0).1.length ∧
    (random_speed_change [1, 1] 16000 1 1 0).1.length =
      ⌊(([1, 1] : List ℚ).length : ℚ) / (1 + 0 * (1 - 1))⌋.toNat :=
  ⟨⟨by norm_num, by norm_num, by norm_num⟩,
   speed_change_length_rate_independent [1, 1] 16000 8000 1 1 0
     (by norm_num) (by norm_num) (by norm_num)⟩

/-- C5: the filter stage draws its ten FIR coefficients from the shared
generator's standard-normal stream, convolves the signal with them in
direct form with zero initial state, and re-applies peak normalization
to the conditioning target, so a (not identically zero) filtered signal
has exactly the peak `t` that every conditioned signal was normalized
to. -/
theorem random_filter_kernel_and_renormalization (t : ℚ) (nrm : ℕ → ℚ) (off : ℕ)
    (x : Record) (ht : 0 < t) :
    (random_filter nrm off x.signal).2 = (List.range 10).map (fun k => nrm (off + k)) ∧
    (random_filter_wrapper t nrm off x).signal =
      peak_normalize t
        (scipy_lfilter ((List.range 10).map (fun k => nrm (off + k))) x.signal) ∧
    (maxAbs (scipy_lfilter ((List.range 10).map (fun k => nrm (off + k))) x.signal) ≠ 0 →
      maxAbs ((random_filter_wrapper t nrm off x).signal) = t) := by
  refine ⟨rfl, rfl, ?_⟩
  intro h
  exact maxAbs_peak_normalize t _ h ht

/-- Witness for C5 at the record with signal `[1, 1]`, all-ones
coefficient draws and target peak 1: the convolved signal `[1, 2]` is
re-normalized to peak 1. -/
theorem random_filter_kernel_and_renormalization_witness :
    ((0 : ℚ) < 1 ∧
      maxAbs (scipy_lfilter ((List.range 10).map (fun _ => (1 : ℚ))) recOrig.signal) ≠ 0) ∧
    maxAbs ((random_filter_wrapper 1 (fun _ => 1) 0 recOrig).signal) = 1 := by
  have hne : maxAbs (scipy_lfilter ((List.range 10).map (fun _ => (1 : ℚ))) recOrig.signal) ≠ 0 := by
    norm_num [scipy_lfilter, maxAbs, List.range_succ, recOrig]
  have happ := (random_filter_kernel_and_renormalization 1 (fun _ => 1) 0 recOrig
    (by norm_num)).2.2
  exact ⟨⟨by norm_num, hne⟩, happ (by simpa using hne)⟩

/-- Traversals of the train split of `pipeline_from_metadata` run both
augmentation maps, then feature extraction, downstream of the cache. -/
theorem pfm_traversal_train (rd : String → List ℚ) (sh : List MetaRow → List MetaRow)
    (u : ℕ → ℕ → ℚ) (sched : ℕ → ℕ → ℕ) (t : ℚ) (nrm : ℕ → ℕ → ℚ)
    (schedf : ℕ → ℕ → ℕ) (lg : ℚ → ℚ) (specf : List ℚ → ℚ → List (List ℚ))
    (melf : List (List ℚ) → ℚ → List (List ℚ)) (rows : List MetaRow) (k : ℕ) :
    pfm_traversal rd sh u sched t nrm schedf lg specf melf rows "train" k =
      (train_augment (u k) (sched k) t (nrm k) (schedf k)
        (pfm_cacheContents rd sh rows "train")).map
        (batch_extract_features lg specf melf) := rfl

/-- Traversals of every non-train split of `pipeline_from_metadata`
apply feature extraction directly to the cached records. -/
theorem pfm_traversal_nontrain (rd : String → List ℚ) (sh : List MetaRow → List MetaRow)
    (u : ℕ → ℕ → ℚ) (sched : ℕ → ℕ → ℕ) (t : ℚ) (nrm : ℕ → ℕ → ℚ)
    (schedf : ℕ → ℕ → ℕ) (lg : ℚ → ℚ) (specf : List ℚ → ℚ → List (List ℚ))
    (melf : List (List ℚ) → ℚ → List (List ℚ)) (rows : List MetaRow)
    (split : String) (k : ℕ) (h : split ≠ "train") :
    pfm_traversal rd sh u sched t nrm schedf lg specf melf rows split k =
      (pfm_cacheContents rd sh rows split).map
        (batch_extract_features lg specf melf) := by
  simp only [pfm_traversal]
  rw [if_neg h]

/-- Every record stored in the cache of `pipeline_from_metadata`, for
any split, is a conditioned-signal record: feature extraction has not
touched it and its signal is non-empty (the filter ran upstream). -/
theorem pfm_cache_mem (rd : String → List ℚ) (sh : List MetaRow → List MetaRow)
    (rows : List MetaRow) (split : String) :
    ∀ x ∈ pfm_cacheContents rd sh rows split, x.logmelspec = none ∧ x.signal ≠ [] := by
  intro x hx
  unfold pfm_cacheContents at hx
  rw [List.mem_filter] at hx
  obtain ⟨hmem, hkeep⟩ := hx
  constructor
  · rw [List.mem_map] at hmem
    obtain ⟨y, hy, hxy⟩ := hmem
    rw [List.mem_map] at hy
    obtain ⟨a, _, hay⟩ := hy
    subst hay
    subst hxy
    rfl
  · have hlen : 0 < x.signal.length := by
      have := of_decide_eq_true hkeep
      exact this
    rw [← List.length_pos]
    exact hlen

/-- The non-test caches of `pipeline_from_meta` hold the output of
`read_mp3` directly: no filter and no feature extraction upstream. -/
theorem pfMeta_cache_nontest (rd : String → List ℚ) (sh : List MetaRow → List MetaRow)
    (lg : ℚ → ℚ) (specf : List ℚ → ℚ → List (List ℚ))
    (melf : List (List ℚ) → ℚ → List (List ℚ)) (rows : List MetaRow)
    (split : String) (h : split ≠ "test") :
    pfMeta_cacheContents rd sh lg specf melf rows split =
      ((pfm_ordered sh rows split).map metadata_to_dataset_input).map (read_mp3 rd) := by
  simp only [pfMeta_cacheContents]
  rw [if_neg h]

/-- Traversals of every non-test split of `pipeline_from_meta` apply
the speed change, the filter and feature extraction downstream of the
cache. -/
theorem pfMeta_traversal_nontest (rd : String → List ℚ) (sh : List MetaRow → List MetaRow)
    (u : ℕ → ℕ → ℚ) (sched : ℕ → ℕ → ℕ) (t : ℚ) (nrm : ℕ → ℕ → ℚ)
    (schedf : ℕ → ℕ → ℕ) (lg : ℚ → ℚ) (specf : List ℚ → ℚ → List (List ℚ))
    (melf : List (List ℚ) → ℚ → List (List ℚ)) (rows : List MetaRow)
    (split : String) (k : ℕ) (h : split ≠ "test") :
    pfMeta_traversal rd sh u sched t nrm schedf lg specf melf rows split k =
      (pfMeta_filter_map t (nrm k) (schedf k)
        (random_signal_speed_change (u k) (sched k)
          (pfMeta_cacheContents rd sh lg specf melf rows split))).map
        (batch_extract_features lg specf melf) := by
  simp only [pfMeta_traversal]
  rw [if_neg h]

/-- C1 (amended): in the augmenting notebook the cache of every split
stores pre-extraction conditioned-signal records, the train split runs
both augmentation maps downstream of the cache before feature
extraction, and every split recomputes feature extraction downstream of
the cache on each traversal; in the embeddings notebook only the test
split caches fully extracted feature records, while every other split
(dev included) caches conditioned signals and runs both augmentation
transforms downstream of the cache. -/
theorem cache_stage_split_behaviour (rd : String → List ℚ)
    (sh : List MetaRow → List MetaRow) (u : ℕ → ℕ → ℚ) (sched : ℕ → ℕ → ℕ)
    (t : ℚ) (nrm : ℕ → ℕ → ℚ) (schedf : ℕ → ℕ → ℕ) (lg : ℚ → ℚ)
    (specf : List ℚ → ℚ → List (List ℚ)) (melf : List (List ℚ) → ℚ → List (List ℚ))
    (rows : List MetaRow) (k : ℕ) :
    (∀ split, ∀ x ∈ pfm_cacheContents rd sh rows split, x.logmelspec = none) ∧
    (pfm_traversal rd sh u sched t nrm schedf lg specf melf rows "train" k =
      (train_augment (u k) (sched k) t (nrm k) (schedf k)
        (pfm_cacheContents rd sh rows "train")).map
        (batch_extract_features lg specf melf)) ∧
    (∀ split, split ≠ "train" →
      pfm_traversal rd sh u sched t nrm schedf lg specf melf rows split k =
        (pfm_cacheContents rd sh rows split).map
          (batch_extract_features lg specf melf)) ∧
    (∀ x ∈ pfMeta_cacheContents rd sh lg specf melf rows "test", ∃ M, x.logmelspec = some M) ∧
    (∀ split, split ≠ "test" →
      (∀ x ∈ pfMeta_cacheContents rd sh lg specf melf rows split, x.logmelspec = none) ∧
      pfMeta_traversal rd sh u sched t nrm schedf lg specf melf rows split k =
        (pfMeta_filter_map t (nrm k) (schedf k)
          (random_signal_speed_change (u k) (sched k)
            (pfMeta_cacheContents rd sh lg specf melf rows split))).map
          (batch_extract_features lg specf melf)) := by
  refine ⟨?_, pfm_traversal_train rd sh u sched t nrm schedf lg specf melf rows k,
    ?_, ?_, ?_⟩
  · intro split x hx
    exact (pfm_cache_mem rd sh rows split x hx).1
  · intro split h
    exact pfm_traversal_nontrain rd sh u sched t nrm schedf lg specf melf rows split k h
  · intro x hx
    simp only [pfMeta_cacheContents, if_pos] at hx
    rw [List.mem_map] at hx
    obtain ⟨y, _, hy⟩ := hx
    subst hy
    exact ⟨_, rfl⟩
  · intro split h
    constructor
    · intro x hx
      rw [pfMeta_cache_nontest rd sh lg specf melf rows split h, List.mem_map] at hx
      obtain ⟨y, hy, hxy⟩ := hx
      rw [List.mem_map] at hy
      obtain ⟨a, _, hay⟩ := hy
      subst hay
      subst hxy
      rfl
    · exact pfMeta_traversal_nontest rd sh u sched t nrm schedf lg specf melf rows split k h

/-- C1, counterexample to the claim as stated: in the augmenting
notebook the dev-split cache entry for a conditioned clip holds the
signal and no feature matrix, where the claim asserts the dev cache
stores the fully processed feature matrix. -/
theorem pfm_dev_cache_stores_signal :
    (pfm_cacheContents rdOne shId [rowDev] "dev").map
      (fun x => (x.logmelspec, x.signal)) = [(none, [1])] := by
  simp [pfm_cacheContents, pfm_ordered, shId, metadata_to_dataset_input, read_mp3,
    rdOne, signal_is_not_empty, rowDev]

/-- Witness for C1 (amended) instantiating the quantified statement at
concrete inputs: the dev cache entry of the augmenting pipeline carries
no feature matrix, and the test cache entry of the embeddings pipeline
carries one. -/
theorem cache_stage_split_behaviour_witness :
    (∀ x ∈ pfm_cacheContents rdOne shId [rowDev] "dev", x.logmelspec = none) ∧
    (∀ x ∈ pfMeta_cacheContents rdOne shId lgId specfTriv melfTriv [rowDev] "test",
      ∃ M, x.logmelspec = some M) ∧
    pfm_traversal rdOne shId uZeroOne schedSerial 1 nrmOne schedSerial lgId specfTriv
        melfTriv [rowDev] "dev" 0 =
      (pfm_cacheContents rdOne shId [rowDev] "dev").map
        (batch_extract_features lgId specfTriv melfTriv) := by
  have h := cache_stage_split_behaviour rdOne shId uZeroOne schedSerial 1 nrmOne
    schedSerial lgId specfTriv melfTriv [rowDev] 0
  exact ⟨h.1 "dev", h.2.2.2.1, h.2.2.1 "dev" (by decide)⟩

/-- C2 (amended): in the augmenting notebook every cached record of
every split has a non-empty signal (the empty-signal filter runs before
the cache), and for every non-train split each record reaching feature
extraction is one of these non-empty cached records. -/
theorem pfm_empty_signals_filtered (rd : String → List ℚ)
    (sh : List MetaRow → List MetaRow) (u : ℕ → ℕ → ℚ) (sched : ℕ → ℕ → ℕ)
    (t : ℚ) (nrm : ℕ → ℕ → ℚ) (schedf : ℕ → ℕ → ℕ) (lg : ℚ → ℚ)
    (specf : List ℚ → ℚ → List (List ℚ)) (melf : List (List ℚ) → ℚ → List (List ℚ))
    (rows : List MetaRow) (split : String) (k : ℕ) :
    (∀ x ∈ pfm_cacheContents rd sh rows split, x.signal ≠ []) ∧
    (split ≠ "train" →
      ∀ x ∈ pfm_traversal rd sh u sched t nrm schedf lg specf melf rows split k,
        ∃ y ∈ pfm_cacheContents rd sh rows split,
          y.signal ≠ [] ∧ x = batch_extract_features lg specf melf y) := by
  constructor
  · intro x hx
    exact (pfm_cache_mem rd sh rows split x hx).2
  · intro h x hx
    rw [pfm_traversal_nontrain rd sh u sched t nrm schedf lg specf melf rows split k h,
      List.mem_map] at hx
    obtain ⟨y, hy, hxy⟩ := hx
    exact ⟨y, hy, (pfm_cache_mem rd sh rows split y hy).2, hxy.symm⟩

/-- C2, counterexample to the claim as stated: the embeddings notebook
has no empty-signal filter, so a clip whose conditioned signal is empty
is written to the dev cache and still flows on to feature
extraction. -/
theorem pfMeta_empty_signal_reaches_cache :
    (pfMeta_cacheContents rdEmpty shId lgId specfTriv melfTriv [rowDev] "dev").map
      (fun x => x.signal) = [[]] ∧
    (pfMeta_traversal rdEmpty shId uZeroOne schedSerial 1 nrmOne schedSerial lgId
      specfTriv melfTriv [rowDev] "dev" 0).length = 1 := by
  constructor
  · simp [pfMeta_cacheContents, pfm_ordered, shId, metadata_to_dataset_input,
      read_mp3, rdEmpty, rowDev]
  · simp [pfMeta_traversal, pfMeta_cacheContents, pfMeta_filter_map,
      random_signal_speed_change, pfm_ordered, shId, metadata_to_dataset_input,
      read_mp3, rdEmpty, rowDev, List.enum]

/-- Witness for C2 (amended) at the dev split of the augmenting
pipeline with a clip conditioning to `[1]`: the cached record is
non-empty and the single traversal output comes from it. -/
theorem pfm_empty_signals_filtered_witness :
    (∀ x ∈ pfm_cacheContents rdOne shId [rowDev] "dev", x.signal ≠ []) ∧
    (∀ x ∈ pfm_traversal rdOne shId uZeroOne schedSerial 1 nrmOne schedSerial lgId
        specfTriv melfTriv [rowDev] "dev" 0,
      ∃ y ∈ pfm_cacheContents rdOne shId [rowDev] "dev",
        y.signal ≠ [] ∧ x = batch_extract_features lgId specfTriv melfTriv y) := by
  have h := pfm_empty_signals_filtered rdOne shId uZeroOne schedSerial 1 nrmOne
    schedSerial lgId specfTriv melfTriv [rowDev] "dev" 0
  exact ⟨h.1, h.2 (by decide)⟩

/-- C6: feature extraction is the in-order composition of spectrogram,
mel projection, log compression `log(S + 1e-6)` and per-utterance CMVN
without variance normalization; the CMVN output has zero per-bin mean
over the time axis, and every record emitted by any traversal of the
augmenting pipeline has passed through this extraction. -/
theorem feature_extraction_order_and_cmvn_mean (lg : ℚ → ℚ)
    (specf : List ℚ → ℚ → List (List ℚ)) (melf : List (List ℚ) → ℚ → List (List ℚ))
    (x : Record) (B j : ℕ) :
    (batch_extract_features lg specf melf x).logmelspec =
      some (cmvn ((melf (specf x.signal x.sample_rate) x.sample_rate).map
        (fun row => row.map (fun v => lg (v + 1/1000000)))) false) ∧
    ((∀ row ∈ (melf (specf x.signal x.sample_rate) x.sample_rate).map
        (fun row => row.map (fun v => lg (v + 1/1000000))), row.length = B) → j < B →
      (((batch_extract_features lg specf melf x).logmelspec.getD []).map
        (fun row => row.getD j 0)).sum = 0) ∧
    (∀ (rd : String → List ℚ) (sh : List MetaRow → List MetaRow) (u : ℕ → ℕ → ℚ)
      (sched : ℕ → ℕ → ℕ) (t : ℚ) (nrm : ℕ → ℕ → ℚ) (schedf : ℕ → ℕ → ℕ)
      (rows : List MetaRow) (split : String) (k : ℕ),
      ∀ rec ∈ pfm_traversal rd sh u sched t nrm schedf lg specf melf rows split k,
        rec.logmelspec ≠ none) := by
  refine ⟨rfl, ?_, ?_⟩
  · intro hrect hj
    have hgd : (batch_extract_features lg specf melf x).logmelspec.getD [] =
        cmvn ((melf (specf x.signal x.sample_rate) x.sample_rate).map
          (fun row => row.map (fun v => lg (v + 1/1000000)))) false := rfl
    rw [hgd]
    exact cmvn_colsum_zero _ B j hrect hj
  · intro rd sh u sched t nrm schedf rows split k rec hrec
    by_cases hs : split = "train"
    · subst hs
      rw [pfm_traversal_train, List.mem_map] at hrec
      obtain ⟨y, _, hy⟩ := hrec
      subst hy
      simp [batch_extract_features]
    · rw [pfm_traversal_nontrain rd sh u sched t nrm schedf lg specf melf rows split k hs,
        List.mem_map] at hrec
      obtain ⟨y, _, hy⟩ := hrec
      subst hy
      simp [batch_extract_features]

/-- Witness for C6 with the trivial DSP stand-ins on the record with
signal `[1, 1]`: the extracted matrix is the CMVN of the log-compressed
mel matrix, its bin-0 column sums to zero, and the one record the dev
traversal emits carries a feature matrix. -/
theorem feature_extraction_order_and_cmvn_mean_witness :
    (((batch_extract_features lgId specfTriv melfTriv recOrig).logmelspec.getD []).map
      (fun row => row.getD 0 0)).sum = 0 ∧
    (batch_extract_features lgId specfTriv melfTriv
        (read_mp3 rdOne (metadata_to_dataset_input rowDev))).logmelspec ≠ none := by
  have h := feature_extraction_order_and_cmvn_mean lgId specfTriv melfTriv recOrig 2 0
  have hrect : ∀ row ∈ (melfTriv (specfTriv recOrig.signal recOrig.sample_rate)
      recOrig.sample_rate).map (fun row => row.map (fun v => lgId (v + 1/1000000))),
      row.length = 2 := by
    intro row hrow
    simp only [specfTriv, melfTriv, lgId, recOrig, List.map_cons, List.map_nil,
      List.mem_singleton] at hrow
    rw [hrow]
    rfl
  have hmem : batch_extract_features lgId specfTriv melfTriv
      (read_mp3 rdOne (metadata_to_dataset_input rowDev)) ∈
      pfm_traversal rdOne shId uZeroOne schedSerial 1 nrmOne schedSerial lgId
        specfTriv melfTriv [rowDev] "dev" 0 := by
    rw [pfm_traversal_nontrain rdOne shId uZeroOne schedSerial 1 nrmOne schedSerial
      lgId specfTriv melfTriv [rowDev] "dev" 0 (by decide)]
    apply List.mem_map_of_mem
    simp [pfm_cacheContents, pfm_ordered, shId, metadata_to_dataset_input, read_mp3,
      rdOne, signal_is_not_empty, rowDev]
  exact ⟨h.2.1 hrect (by norm_num),
    h.2.2 rdOne shId uZeroOne schedSerial 1 nrmOne schedSerial [rowDev] "dev" 0 _ hmem⟩

/-- C7, counterexample to the claim as stated: the source pipeline
shuffles the train metadata once, at construction; with the same
underlying draws (the construction draw and the traversal-0 draw both
leave the order unchanged, the traversal-1 draw reverses it) the code
emits the same order `[u0, u1]` on traversal 1 as on traversal 0, while
a start-of-traversal reshuffle as claimed would emit `[u1, u0]`. -/
theorem train_order_not_freshly_reshuffled :
    pfm_train_traversal_ids rdOne shId uZeroOne schedSerial 1 nrmOne schedSerial
        lgId specfTriv melfTriv [rowTrainOrig, rowTrainCopy] 1 =
      pfm_train_traversal_ids rdOne shId uZeroOne schedSerial 1 nrmOne schedSerial
        lgId specfTriv melfTriv [rowTrainOrig, rowTrainCopy] 0 ∧
    spec_train_traversal_ids rdOne shufflesRev [rowTrainOrig, rowTrainCopy] 0 =
      pfm_train_traversal_ids rdOne shId uZeroOne schedSerial 1 nrmOne schedSerial
        lgId specfTriv melfTriv [rowTrainOrig, rowTrainCopy] 0 ∧
    spec_train_traversal_ids rdOne shufflesRev [rowTrainOrig, rowTrainCopy] 1 ≠
      pfm_train_traversal_ids rdOne shId uZeroOne schedSerial 1 nrmOne schedSerial
        lgId specfTriv melfTriv [rowTrainOrig, rowTrainCopy] 1 := by
  have hcode : ∀ k, pfm_train_traversal_ids rdOne shId uZeroOne schedSerial 1 nrmOne
      schedSerial lgId specfTriv melfTriv [rowTrainOrig, rowTrainCopy] k =
      ["u0", "u1"] := by
    intro k
    unfold pfm_train_traversal_ids
    rw [pfm_traversal_train, map_bef_ids, train_augment_ids]
    simp [pfm_cacheContents, pfm_ordered, shId, metadata_to_dataset_input, read_mp3,
      rdOne, signal_is_not_empty, rowTrainOrig, rowTrainCopy]
  have hspec0 : spec_train_traversal_ids rdOne shufflesRev
      [rowTrainOrig, rowTrainCopy] 0 = ["u0", "u1"] := by
    simp [spec_train_traversal_ids, shufflesRev, pfm_cacheContents, pfm_ordered,
      metadata_to_dataset_input, read_mp3, rdOne, signal_is_not_empty,
      rowTrainOrig, rowTrainCopy]
  have hspec1 : spec_train_traversal_ids rdOne shufflesRev
      [rowTrainOrig, rowTrainCopy] 1 = ["u1", "u0"] := by
    simp [spec_train_traversal_ids, shufflesRev, pfm_cacheContents, pfm_ordered,
      metadata_to_dataset_input, read_mp3, rdOne, signal_is_not_empty,
      rowTrainOrig, rowTrainCopy]
  refine ⟨by rw [hcode, hcode], by rw [hspec0, hcode], ?_⟩
  rw [hspec1, hcode]
  decide

/-- C7 (amended): the utterance order of a split's traversal is fixed
once the pipeline is constructed — every traversal emits the same order
(for the train split, the order fixed by the single construction-time
shuffle) — and every non-train split emits the surviving utterances in
metadata order. -/
theorem traversal_order_fixed_after_construction (rd : String → List ℚ)
    (sh : List MetaRow → List MetaRow) (u : ℕ → ℕ → ℚ) (sched : ℕ → ℕ → ℕ)
    (t : ℚ) (nrm : ℕ → ℕ → ℚ) (schedf : ℕ → ℕ → ℕ) (lg : ℚ → ℚ)
    (specf : List ℚ → ℚ → List (List ℚ)) (melf : List (List ℚ) → ℚ → List (List ℚ))
    (rows : List MetaRow) (split : String) (k k' : ℕ) :
    ((pfm_traversal rd sh u sched t nrm schedf lg specf melf rows split k).map
        (fun r => r.id) =
      (pfm_traversal rd sh u sched t nrm schedf lg specf melf rows split k').map
        (fun r => r.id)) ∧
    (split ≠ "train" →
      (pfm_traversal rd sh u sched t nrm schedf lg specf melf rows split k).map
          (fun r => r.id) =
        (((rows.map metadata_to_dataset_input).map (read_mp3 rd)).filter
          (fun x => signal_is_not_empty x)).map (fun r => r.id)) := by
  have hids : ∀ kk, (pfm_traversal rd sh u sched t nrm schedf lg specf melf rows
      split kk).map (fun r => r.id) =
      (pfm_cacheContents rd sh rows split).map (fun r => r.id) := by
    intro kk
    by_cases hs : split = "train"
    · subst hs
      rw [pfm_traversal_train, map_bef_ids, train_augment_ids]
    · rw [pfm_traversal_nontrain rd sh u sched t nrm schedf lg specf melf rows
        split kk hs, map_bef_ids]
  refine ⟨by rw [hids, hids], ?_⟩
  intro hs
  rw [hids k]
  unfold pfm_cacheContents pfm_ordered
  rw [if_neg hs]

/-- Witness for C7 (amended) at the dev split: the traversal emits the
surviving utterances in metadata order. -/
theorem traversal_order_fixed_after_construction_witness :
    (pfm_traversal rdOne shId uZeroOne schedSerial 1 nrmOne schedSerial lgId
        specfTriv melfTriv [rowDev] "dev" 0).map (fun r => r.id) =
      ((([rowDev].map metadata_to_dataset_input).map (read_mp3 rdOne)).filter
        (fun x => signal_is_not_empty x)).map (fun r => r.id) :=
  (traversal_order_fixed_after_construction rdOne shId uZeroOne schedSerial 1 nrmOne
    schedSerial lgId specfTriv melfTriv [rowDev] "dev" 0 1).2 (by decide)

/-- C8: with the same seed (the same draw streams), two runs of the
same train-split traversal under different execution schedules assign
different draws of the shared generator to the same utterance and emit
different augmented signals — here the two records swap output lengths
2 and 1, so reproducibility under parallel execution fails. -/
theorem train_traversal_schedule_dependent :
    (pfm_traversal rdTwo shId uZeroOne schedSerial 1 nrmOne schedSerial lgId
        specfTriv melfTriv [rowTrainCopy, rowTrainCopy2] "train" 0).map
      (fun r => r.signal.length) ≠
    (pfm_traversal rdTwo shId uZeroOne schedSwapped 1 nrmOne schedSerial lgId
        specfTriv melfTriv [rowTrainCopy, rowTrainCopy2] "train" 0).map
      (fun r => r.signal.length) := by
  have hser : (pfm_traversal rdTwo shId uZeroOne schedSerial 1 nrmOne schedSerial lgId
      specfTriv melfTriv [rowTrainCopy, rowTrainCopy2] "train" 0).map
      (fun r => r.signal.length) = [2, 1] := by
    rw [pfm_traversal_train, List.map_map]
    simp [Function.comp, batch_extract_features, pfm_cacheContents, pfm_ordered, shId,
      metadata_to_dataset_input, read_mp3,
      rdTwo, signal_is_not_empty, rowTrainCopy, rowTrainCopy2, train_augment,
      List.enum, List.enumFrom, random_speed_change_wrapper, random_speed_change,
      random_filter_wrapper, random_filter, peak_normalize_length,
      scipy_lfilter_length, scipy_resample_length, uZeroOne, schedSerial, nrmOne]
    norm_num
    rfl
  have hswap : (pfm_traversal rdTwo shId uZeroOne schedSwapped 1 nrmOne schedSerial lgId
      specfTriv melfTriv [rowTrainCopy, rowTrainCopy2] "train" 0).map
      (fun r => r.signal.length) = [1, 2] := by
    rw [pfm_traversal_train, List.map_map]
    simp [Function.comp, batch_extract_features, pfm_cacheContents, pfm_ordered, shId,
      metadata_to_dataset_input, read_mp3,
      rdTwo, signal_is_not_empty, rowTrainCopy, rowTrainCopy2, train_augment,
      List.enum, List.enumFrom, random_speed_change_wrapper, random_speed_change,
      random_filter_wrapper, random_filter, peak_normalize_length,
      scipy_lfilter_length, scipy_resample_length, uZeroOne, schedSwapped, nrmOne]
    norm_num
    rfl
  rw [hser, hswap]
  decide

end Lidbox
